import Mathlib

/-!
Shallow embedding of the deterministic lyric-analysis core of the
`learnbysongs` repository (`src/App.tsx`): tokenisation, normalisation,
stop-word filtering, frequency/heuristic difficulty scoring, per-level
thresholding, aggregation and ranking.

Modelling choices: JS strings are Lean `String` / `List Char` (case folding
is modelled on ASCII, which agrees with the source's `[a-z]`-based regexes on
all inputs the pipeline distinguishes); JS numbers are `ℚ`; the insertion-
ordered JS `Map` is an association list updated in place and extended at the
end; the stable `Array.prototype.sort` is `List.mergeSort` with the boolean
reflection of the source's comparator.
-/

namespace Learnbysongs

/-- The apostrophe character (code point 39), the one non-letter character that
`normalizeWord` keeps at word boundaries. -/
def apostrophe : Char := Char.ofNat 39

/-- Lower-case ASCII letter: what the source's character class `[a-z]` matches. -/
def isLowerAlpha (c : Char) : Bool := decide ('a' ≤ c) && decide (c ≤ 'z')

/-- Upper-case ASCII letter. -/
def isAsciiUpper (c : Char) : Bool := decide ('A' ≤ c) && decide (c ≤ 'Z')

/-- ASCII letter, i.e. what `[a-z]` matches under the regex `i` flag. -/
def isAsciiLetter (c : Char) : Bool := isLowerAlpha c || isAsciiUpper c

/-- Characters that survive at word boundaries in `normalizeWord`: the complement of
the regex class excluding lower-case letters and the apostrophe. -/
def keepChar (c : Char) : Bool := isLowerAlpha c || c == apostrophe

/-- Drops the trailing run of characters satisfying `p` (the regex `X+$` part). -/
def trimEndBy (p : Char → Bool) (l : List Char) : List Char :=
  (l.reverse.dropWhile p).reverse

/-- The function `normalizeWord` of `App.tsx`: lower-case the raw token, then delete the
leading and the trailing run of characters that are neither lower-case letters nor
apostrophes (the regex replace anchored at both ends, flags `gi`; after lower-casing
the `i` flag adds nothing). -/
def normalizeWord (raw : String) : String :=
  ⟨trimEndBy (fun c => !keepChar c)
    ((raw.data.map Char.toLower).dropWhile (fun c => !keepChar c))⟩

/-- Vowels of the source's syllable proxy, the class `[aeiouy]`. -/
def isVowel (c : Char) : Bool :=
  c == 'a' || c == 'e' || c == 'i' || c == 'o' || c == 'u' || c == 'y'

/-- Counts the maximal runs of vowels in a character list (the number of matches of
`/[aeiouy]+/g`); the flag records whether the previous character was a vowel. -/
def vowelRunsAux : Bool → List Char → Nat
  | _, [] => 0
  | inRun, c :: cs =>
    if isVowel c then (if inRun then 0 else 1) + vowelRunsAux true cs
    else vowelRunsAux false cs

/-- Number of maximal vowel runs of a character list. -/
def vowelRuns (l : List Char) : Nat := vowelRunsAux false l

/-- The function `estimateSyllables` of `App.tsx`: lower-case, drop every character outside
`[a-z]`, answer `0` on the empty remainder; a null `match` of `/[aeiouy]+/g` answers `1`,
otherwise `Math.max(1, count)` — together `max 1 (vowelRuns cleaned)`. -/
def estimateSyllables (word : String) : Nat :=
  let cleaned := (word.data.map Char.toLower).filter isLowerAlpha
  if cleaned.isEmpty then 0 else max 1 (vowelRuns cleaned)

/-- The suffix alternatives of the academic-suffix regex in `estimateDifficultyScore`. -/
def suffixList : List String :=
  ["tion", "sion", "ment", "less", "ship", "ance", "ence", "ious", "eous", "tive",
    "ward", "wise", "ism", "ity", "ness"]

/-- The alternatives of the complex-letter-cluster regex in `estimateDifficultyScore`. -/
def clusterList : List String :=
  ["ph", "que", "rh", "zh", "ch", "sh", "x", "z"]

/-- Substring containment: some tail of `l` starts with `pat` (the semantics of an
unanchored regex-literal `.test`). -/
def containsSeq (pat l : List Char) : Bool :=
  l.tails.any (fun t => pat.isPrefixOf t)

/-- Test of `/(tion|sion|ment|less|ship|ance|ence|ious|eous|tive|ward|wise|ism|ity|ness)$/i`:
the word, case-folded for the `i` flag, ends in one of the listed suffixes. -/
def hasAcademicSuffix (word : String) : Bool :=
  suffixList.any (fun s => s.data.isSuffixOf (word.data.map Char.toLower))

/-- Test of `/(ph|que|rh|zh|ch|sh|x|z)/i`: the case-folded word contains one of the
listed clusters as a substring. -/
def hasComplexCluster (word : String) : Bool :=
  clusterList.any (fun s => containsSeq s.data (word.data.map Char.toLower))

/-- Modelled from the spec: the source imports `getWordFrequencyTier` from
`./wordFrequency`, a file the repository snapshot does not contain. Per spec §4.2 the
classifier looks the canonical word up in a fixed word→tier table (the table populates
tiers 1–4) and any word absent from the table defaults to tier 5. The table contents are
not specified, so the table is carried as an explicit parameter throughout. -/
def getWordFrequencyTier (table : List (String × Nat)) (w : String) : Nat :=
  match table.lookup w with
  | some t => t
  | none => 5

/-- JavaScript `Math.round`: round half toward plus infinity, `⌊x + 1/2⌋`, written
through the numerator/denominator division of `ℚ` so that it evaluates by reduction. -/
def jsRound (x : ℚ) : ℤ := (x + 1 / 2).num / ((x + 1 / 2).den : ℤ)

/-- The additive point total accumulated by `estimateDifficultyScore` before its final
rounding: base `5 - frequencyTier`, then the length, syllable, suffix and cluster
bonuses, each written as the `if` its source line performs. -/
def rawDifficultyScore (table : List (String × Nat)) (word : String) : ℚ :=
  (5 - (getWordFrequencyTier table word : ℚ))
    + (if 10 ≤ word.length then 1 else 0)
    + (if 12 ≤ word.length then 1 else 0)
    + (if 4 ≤ estimateSyllables word then 1 else 0)
    + (if 5 ≤ estimateSyllables word then 1 else 0)
    + (if hasAcademicSuffix word then 1 else 0)
    + (if hasComplexCluster word then 1 / 2 else 0)

/-- The function `estimateDifficultyScore` of `App.tsx`: the accumulated point total, then
`Math.round(score * 10) / 10`. -/
def estimateDifficultyScore (table : List (String × Nat)) (word : String) : ℚ :=
  (jsRound (rawDifficultyScore table word * 10) : ℚ) / 10

/-- The three qualitative difficulty bands of a `LearningItem`. -/
inductive DifficultyBand
  | comfortable
  | stretch
  | challenging
deriving DecidableEq, Repr

/-- The function `toDifficultyBand` of `App.tsx`. -/
def toDifficultyBand (score threshold : ℚ) : DifficultyBand :=
  if score ≤ threshold then .comfortable
  else if score ≤ threshold + 2 then .stretch
  else .challenging

/-- The six CEFR-style user levels. -/
inductive UserLevel
  | A1
  | A2
  | B1
  | B2
  | C1
  | C2
deriving DecidableEq, Repr

/-- The record `LEVEL_DIFFICULTY_THRESHOLD` of `App.tsx`. -/
def LEVEL_DIFFICULTY_THRESHOLD : UserLevel → ℚ
  | .A1 => 2
  | .A2 => 3
  | .B1 => 4
  | .B2 => 5
  | .C1 => 6
  | .C2 => 7

/-- The stop-word set `STOP_WORDS` of `App.tsx` (a JS `Set` used only through `has`,
hence a list queried by `contains`). -/
def STOP_WORDS : List String :=
  ["i", "you", "he", "she", "it", "we", "they", "me", "him", "her", "them",
    "my", "your", "his", "their", "our", "and", "or", "but", "so", "because",
    "if", "when", "while", "in", "on", "at", "with", "for", "from", "to", "of",
    "a", "an", "the", "is", "am", "are", "was", "were", "be", "been", "have",
    "has", "had", "do", "does", "did", "this", "that", "these", "those",
    "here", "there", "up", "down", "out", "into", "over", "under", "again",
    "very", "just", "then", "now", "not",
    ⟨['d', 'o', 'n', apostrophe, 't']⟩,
    ⟨['d', 'o', 'e', 's', 'n', apostrophe, 't']⟩,
    ⟨['d', 'i', 'd', 'n', apostrophe, 't']⟩]

/-- Example-unit delimiters: the character class of the split regex `[\n.!?]+`. -/
def isExampleDelim (c : Char) : Bool :=
  c == '\n' || c == '.' || c == '!' || c == '?'

/-- Splits a character list at every character satisfying `p` (JS `String.split`
against a single-character pattern: delimiters are dropped, empty pieces kept). -/
def splitCharsOn (p : Char → Bool) : List Char → List (List Char)
  | [] => [[]]
  | c :: cs =>
    if p c then [] :: splitCharsOn p cs
    else
      match splitCharsOn p cs with
      | [] => [[c]]
      | piece :: rest => (c :: piece) :: rest

/-- JS `String.prototype.trim`: drop the leading and trailing whitespace runs. -/
def trimChars (l : List Char) : List Char :=
  trimEndBy Char.isWhitespace (l.dropWhile Char.isWhitespace)

/-- The function `splitIntoExamples` of `App.tsx`: split on `[\n.!?]+`, trim each piece,
drop the empties (`filter(Boolean)`). Splitting on delimiter runs and splitting on the
single delimiter characters differ only in empty pieces, which the final filter removes,
so the two give the same list. -/
def splitIntoExamples (text : String) : List String :=
  (((splitCharsOn isExampleDelim text.data).map trimChars).filter
      (fun l => !l.isEmpty)).map (fun l => (⟨l⟩ : String))

/-- Tokenisation `ex.split(/\s+/)` inside the extraction loop. Splitting on single
whitespace characters can produce extra empty tokens where `/\s+/` collapses a run;
every empty token normalises to `""` and is discarded by the pipeline's first filter,
so the item output is unchanged. -/
def rawTokens (ex : String) : List String :=
  (splitCharsOn Char.isWhitespace ex.data).map (fun l => (⟨l⟩ : String))

/-- The per-word aggregation record of `extractLearningItems` (`wordStats` values).
The source calls the third field `example`, a keyword in Lean, hence `exampleText`. -/
structure WordInfo where
  count : Nat
  score : ℚ
  exampleText : String
deriving DecidableEq, Repr

/-- The output record of the pipeline (`LearningItem` of `App.tsx`, the optional
LLM/translation fields omitted as they are never set by the deterministic core).
The source calls the last field `example`, a keyword in Lean, hence `exampleText`. -/
structure LearningItem where
  id : String
  word : String
  difficultyScore : ℚ
  difficultyBand : DifficultyBand
  count : Nat
  exampleText : String
deriving DecidableEq, Repr

/-- The `current.count += 1` branch of the loop: increment the count of the entry of `w`,
leaving its score and first-seen example unchanged (in-place `Map` update). -/
def bumpCount : List (String × WordInfo) → String → List (String × WordInfo)
  | [], _ => []
  | (k, info) :: rest, w =>
    if k = w then (k, { info with count := info.count + 1 }) :: rest
    else (k, info) :: bumpCount rest w

/-- One iteration of the token loop of `extractLearningItems`, acting on `wordStats`;
the token `t` is paired with the example unit it came from (`t = (ex, raw)`). The
log-only statements of the source are omitted: they never touch `wordStats`. -/
def processToken (table : List (String × Nat)) (threshold : ℚ)
    (stats : List (String × WordInfo)) (t : String × String) :
    List (String × WordInfo) :=
  let w := normalizeWord t.2
  if w = "" then stats
  else if STOP_WORDS.contains w then stats
  else if w.data.any Char.isDigit then stats
  else
    let score := estimateDifficultyScore table w
    if score ≤ threshold then stats
    else
      match stats.lookup w with
      | some _ => bumpCount stats w
      | none => stats ++ [(w, ⟨1, score, t.1⟩)]

/-- The token stream the two nested `for` loops of the source traverse: every raw token
of every example unit, in input order, paired with its example unit. -/
def tokenStream (lyrics : String) : List (String × String) :=
  (splitIntoExamples lyrics).flatMap (fun ex => (rawTokens ex).map (fun r => (ex, r)))

/-- Boolean reflection of the sort comparator of `extractLearningItems`
(`b.score - a.score`, ties by `b.count - a.count`): `itemLE a b` holds exactly when the
comparator answers ≤ 0 on `(a, b)`, i.e. when `a` may stay before `b`. -/
def itemLE (a b : LearningItem) : Bool :=
  decide (b.difficultyScore < a.difficultyScore) ||
    (decide (a.difficultyScore = b.difficultyScore) && decide (b.count ≤ a.count))

/-- The aggregation state `wordStats` after the two nested loops, as a fold of
`processToken` over the flattened token stream. -/
def wordStats (table : List (String × Nat)) (threshold : ℚ) (lyrics : String) :
    List (String × WordInfo) :=
  (tokenStream lyrics).foldl (processToken table threshold) []

/-- The arrow function inside the `.map` of `extractLearningItems`, converting a
`wordStats` entry into a `LearningItem` (the `id` is the word itself). -/
def mkItem (threshold : ℚ) (p : String × WordInfo) : LearningItem :=
  { id := p.1, word := p.1, difficultyScore := p.2.score,
    difficultyBand := toDifficultyBand p.2.score threshold,
    count := p.2.count, exampleText := p.2.exampleText }

/-- The function `extractLearningItems` of `App.tsx`: resolve the threshold, aggregate
`wordStats`, convert the entries to items (`Array.from(wordStats.entries()).map`) and
sort with the score/count comparator (a stable JS sort, modelled by `mergeSort`). -/
def extractLearningItems (table : List (String × Nat)) (lyrics : String)
    (level : UserLevel) : List LearningItem :=
  ((wordStats table (LEVEL_DIFFICULTY_THRESHOLD level) lyrics).map
    (mkItem (LEVEL_DIFFICULTY_THRESHOLD level))).mergeSort itemLE

/-! ### Basic facts about the scorer -/

theorem char_toLower_of_not_upper {c : Char} (h : isAsciiUpper c = false) :
    Char.toLower c = c := by
  have h' : ¬(c.toNat ≥ 65 ∧ c.toNat ≤ 90) := by
    intro hc
    have h1 : ('A' : Char) ≤ c := hc.1
    have h2 : c ≤ 'Z' := hc.2
    simp [isAsciiUpper, h1, h2] at h
  simp [Char.toLower, h']

theorem map_toLower_of_not_upper {l : List Char}
    (h : l.all (fun c => !isAsciiUpper c) = true) : l.map Char.toLower = l := by
  induction l with
  | nil => rfl
  | cons c cs ih =>
    simp only [List.all_cons, Bool.and_eq_true, Bool.not_eq_true'] at h
    simp [char_toLower_of_not_upper h.1, ih (by simpa using h.2)]

theorem jsRound_eq_floor (x : ℚ) : jsRound x = ⌊x + 1 / 2⌋ := (Rat.floor_def).symm

theorem jsRound_intCast (z : ℤ) : jsRound (z : ℚ) = z := by
  rw [jsRound_eq_floor, add_comm, Int.floor_add_int]
  norm_num

theorem rawDifficultyScore_mul_ten (table : List (String × Nat)) (w : String) :
    ∃ z : ℤ, rawDifficultyScore table w * 10 = (z : ℚ) := by
  unfold rawDifficultyScore
  refine ⟨(5 - (getWordFrequencyTier table w : ℤ)) * 10
      + (if 10 ≤ w.length then 10 else 0)
      + (if 12 ≤ w.length then 10 else 0)
      + (if 4 ≤ estimateSyllables w then 10 else 0)
      + (if 5 ≤ estimateSyllables w then 10 else 0)
      + (if hasAcademicSuffix w then 10 else 0)
      + (if hasComplexCluster w then 5 else 0), ?_⟩
  split_ifs <;> push_cast <;> ring

/-- The rounding step of `estimateDifficultyScore` is the identity: every point total the
scorer can accumulate is a multiple of one half, so `Math.round(score * 10) / 10`
returns the total unchanged. -/
theorem estimateDifficultyScore_eq_raw (table : List (String × Nat)) (w : String) :
    estimateDifficultyScore table w = rawDifficultyScore table w := by
  obtain ⟨z, hz⟩ := rawDifficultyScore_mul_ten table w
  unfold estimateDifficultyScore
  rw [hz, jsRound_intCast]
  have h10 : (10 : ℚ) ≠ 0 := by norm_num
  rw [eq_comm, eq_div_iff h10, ← hz]

/-! ### Claim-side definitions for C1

The next definitions transcribe claim C1 word for word, for comparison with
`estimateDifficultyScore` (which is translated from the source). -/

/-- Canonical word as claim C1 words it: a nonempty lowercase string containing at
least one letter. -/
def isCanonicalWord (w : String) : Bool :=
  !w.data.isEmpty && w.data.all (fun c => !isAsciiUpper c) && w.data.any isLowerAlpha

/-- Claim-side suffix test: `w` itself ends in one of the listed suffixes. -/
def endsInAcademicSuffix (w : String) : Bool :=
  suffixList.any (fun s => s.data.isSuffixOf w.data)

/-- Claim-side cluster test: `w` itself contains one of the listed clusters. -/
def containsComplexCluster (w : String) : Bool :=
  clusterList.any (fun s => containsSeq s.data w.data)

/-- The additive total of claim C1, parametrised by the syllable count `syl` used for
the syllable bonus: base `5 - tier`, length bonuses at 10 and 12, syllable bonuses at
4 and 5, suffix bonus, cluster bonus. -/
def claimScoreParts (table : List (String × Nat)) (w : String) (syl : ℕ) : ℚ :=
  (5 - (getWordFrequencyTier table w : ℚ))
    + (if 10 ≤ w.length then 1 else 0)
    + (if 12 ≤ w.length then 1 else 0)
    + (if 4 ≤ syl then 1 else 0)
    + (if 5 ≤ syl then 1 else 0)
    + (if endsInAcademicSuffix w then 1 else 0)
    + (if containsComplexCluster w then 1 / 2 else 0)

/-- The score exactly as claim C1 states it: the syllable bonus counts the maximal
vowel runs of `w` itself (`1` when there are none), and the sum is rounded to one
decimal place. -/
def claimScoreC1 (table : List (String × Nat)) (w : String) : ℚ :=
  (jsRound (claimScoreParts table w (max 1 (vowelRuns w.data)) * 10) : ℚ) / 10

theorem hasAcademicSuffix_of_not_upper {w : String}
    (h : w.data.all (fun c => !isAsciiUpper c) = true) :
    hasAcademicSuffix w = endsInAcademicSuffix w := by
  unfold hasAcademicSuffix endsInAcademicSuffix
  rw [map_toLower_of_not_upper h]

theorem hasComplexCluster_of_not_upper {w : String}
    (h : w.data.all (fun c => !isAsciiUpper c) = true) :
    hasComplexCluster w = containsComplexCluster w := by
  unfold hasComplexCluster containsComplexCluster
  rw [map_toLower_of_not_upper h]

theorem estimateSyllables_of_canonical {w : String}
    (hu : w.data.all (fun c => !isAsciiUpper c) = true)
    (hl : w.data.any isLowerAlpha = true) :
    estimateSyllables w = max 1 (vowelRuns (w.data.filter isLowerAlpha)) := by
  unfold estimateSyllables
  rw [map_toLower_of_not_upper hu]
  obtain ⟨c, hc, hca⟩ := List.any_eq_true.mp hl
  have hne : w.data.filter isLowerAlpha ≠ [] :=
    List.ne_nil_of_mem (List.mem_filter.mpr ⟨hc, hca⟩)
  simp only [List.isEmpty_iff, if_neg hne]

/-- Claim C1, amended: for a canonical word the difficulty score is the claimed sum,
except that the vowel runs of the syllable bonus are counted on the letters of the
word only (the scorer deletes apostrophes before counting); the sum is a multiple of
one half, so the final rounding to one decimal place leaves it unchanged. -/
theorem c1_difficulty_score_formula (table : List (String × Nat)) (w : String)
    (h : isCanonicalWord w = true) :
    estimateDifficultyScore table w =
      claimScoreParts table w (max 1 (vowelRuns (w.data.filter isLowerAlpha))) := by
  have h' := h
  unfold isCanonicalWord at h'
  simp only [Bool.and_eq_true] at h'
  obtain ⟨⟨-, hu⟩, hl⟩ := h'
  rw [estimateDifficultyScore_eq_raw]
  unfold rawDifficultyScore claimScoreParts
  rw [estimateSyllables_of_canonical hu hl, hasAcademicSuffix_of_not_upper hu,
    hasComplexCluster_of_not_upper hu]

/-- Witness for `c1_difficulty_score_formula` at the word `zaz` with a table placing
it in tier 1. -/
theorem c1_difficulty_score_formula_witness :
    isCanonicalWord "zaz" = true ∧
      estimateDifficultyScore [("zaz", 1)] "zaz" =
        claimScoreParts [("zaz", 1)] "zaz"
          (max 1 (vowelRuns ("zaz".data.filter isLowerAlpha))) :=
  ⟨by decide, c1_difficulty_score_formula [("zaz", 1)] "zaz" (by decide)⟩

/-- The canonical word `a`-apostrophe-`ab`-apostrophe-`ab`-apostrophe-`ab`: ten
characters, seven letters, vowels in four maximal runs, three once the apostrophes
are deleted. -/
def c1CexWord : String :=
  ⟨['a', apostrophe, 'a', 'b', apostrophe, 'a', 'b', apostrophe, 'a', 'b']⟩

/-- Counterexample to claim C1 as literally stated: in `c1CexWord` the vowels form
four maximal runs, so the claimed formula adds the first syllable bonus; the scorer
counts the runs after deleting the apostrophes, finds only three, and adds nothing,
so the two scores differ (1 versus 2 over the empty table). -/
theorem c1_literal_formula_counterexample :
    isCanonicalWord c1CexWord = true ∧
      estimateDifficultyScore [] c1CexWord ≠ claimScoreC1 [] c1CexWord := by
  refine ⟨by decide, ?_⟩
  have h1 : estimateDifficultyScore [] c1CexWord = 1 := by
    rw [estimateDifficultyScore_eq_raw]
    unfold rawDifficultyScore
    rw [show getWordFrequencyTier [] c1CexWord = 5 from by decide,
      show c1CexWord.length = 10 from by decide,
      show estimateSyllables c1CexWord = 3 from by decide,
      show hasAcademicSuffix c1CexWord = false from by decide,
      show hasComplexCluster c1CexWord = false from by decide]
    norm_num
  have h2 : claimScoreParts [] c1CexWord (max 1 (vowelRuns c1CexWord.data)) = 2 := by
    unfold claimScoreParts
    rw [show getWordFrequencyTier [] c1CexWord = 5 from by decide,
      show c1CexWord.length = 10 from by decide,
      show max 1 (vowelRuns c1CexWord.data) = 4 from by decide,
      show endsInAcademicSuffix c1CexWord = false from by decide,
      show containsComplexCluster c1CexWord = false from by decide]
    norm_num
  have h3 : claimScoreC1 [] c1CexWord = 2 := by
    unfold claimScoreC1
    rw [h2, show ((2 : ℚ) * 10) = ((20 : ℤ) : ℚ) from by norm_num, jsRound_intCast]
    norm_num
  rw [h1, h3]
  norm_num

/-- Claim C9: the word `unconditionally` receives the length bonus (+2), the syllable
bonus (+2), no suffix bonus (it does not end in any listed suffix: the match is
anchored at the end of the word, and a mid-word `tion` does not count) and no cluster
bonus, for any frequency table. -/
theorem c9_unconditionally_score (table : List (String × Nat)) :
    estimateDifficultyScore table "unconditionally" =
      (5 - (getWordFrequencyTier table "unconditionally" : ℚ)) + 2 + 2 ∧
      hasAcademicSuffix "unconditionally" = false ∧
      hasComplexCluster "unconditionally" = false := by
  refine ⟨?_, by decide, by decide⟩
  rw [estimateDifficultyScore_eq_raw]
  unfold rawDifficultyScore
  rw [show estimateSyllables "unconditionally" = 6 from by decide,
    show "unconditionally".length = 15 from by decide,
    show hasAcademicSuffix "unconditionally" = false from by decide,
    show hasComplexCluster "unconditionally" = false from by decide]
  norm_num
  ring

/-! ### The aggregation invariant of the token loop -/

/-- A canonical word passes every filter of the token loop: non-empty, no stop word,
no digit, score strictly above the threshold. All four tests depend only on the
canonical word, so every occurrence of one canonical word passes or fails uniformly. -/
def passes (table : List (String × Nat)) (threshold : ℚ) (w : String) : Bool :=
  !decide (w = "") && !STOP_WORDS.contains w && !w.data.any Char.isDigit &&
    decide (threshold < estimateDifficultyScore table w)

theorem processToken_eq (table : List (String × Nat)) (threshold : ℚ)
    (stats : List (String × WordInfo)) (t : String × String) :
    processToken table threshold stats t =
      if passes table threshold (normalizeWord t.2) then
        match stats.lookup (normalizeWord t.2) with
        | some _ => bumpCount stats (normalizeWord t.2)
        | none => stats ++
            [(normalizeWord t.2,
              ⟨1, estimateDifficultyScore table (normalizeWord t.2), t.1⟩)]
      else stats := by
  unfold processToken passes
  set w := normalizeWord t.2
  by_cases h1 : w = ""
  · simp [h1]
  · by_cases h2 : w ∈ STOP_WORDS
    · simp [h1, h2]
    · by_cases h3 : ∃ c ∈ w.data, c.isDigit = true
      · obtain ⟨c, hc, hd⟩ := h3
        have h3e : ∃ c ∈ w.data, c.isDigit = true := ⟨c, hc, hd⟩
        have h3n : ¬∀ c ∈ w.data, c.isDigit = false := fun hall => by
          rw [hall c hc] at hd
          exact Bool.false_ne_true hd
        simp [h1, h2, h3n, h3e]
      · have h3a : ∀ c ∈ w.data, c.isDigit = false := by
          intro c hc
          by_contra hcontra
          exact h3 ⟨c, hc, by simpa using hcontra⟩
        by_cases h4 : estimateDifficultyScore table w ≤ threshold
        · simp [h1, h2, h3, h3a, h4, not_lt.mpr h4]
        · simp [h1, h2, h3, h4, not_le.mp h4]
          rw [if_pos h3a]

theorem bumpCount_map_fst (stats : List (String × WordInfo)) (w : String) :
    (bumpCount stats w).map Prod.fst = stats.map Prod.fst := by
  induction stats with
  | nil => rfl
  | cons p rest ih =>
    obtain ⟨k, info⟩ := p
    by_cases h : k = w <;> simp [bumpCount, h, ih]

theorem mem_bumpCount {stats : List (String × WordInfo)} {w w2 : String}
    {i2 : WordInfo} (hnd : (stats.map Prod.fst).Nodup)
    (h : (w2, i2) ∈ bumpCount stats w) :
    (w2 ≠ w ∧ (w2, i2) ∈ stats) ∨
      (w2 = w ∧ ∃ i, (w, i) ∈ stats ∧ i2 = ⟨i.count + 1, i.score, i.exampleText⟩) := by
  induction stats with
  | nil => simp [bumpCount] at h
  | cons p rest ih =>
    obtain ⟨k, info⟩ := p
    simp only [List.map_cons, List.nodup_cons] at hnd
    by_cases hk : k = w
    · subst hk
      rw [bumpCount, if_pos rfl] at h
      rcases List.mem_cons.mp h with h | h
      · rw [Prod.mk.injEq] at h
        obtain ⟨rfl, rfl⟩ := h
        exact Or.inr ⟨rfl, info, List.mem_cons_self _ _, rfl⟩
      · by_cases hw2 : w2 = k
        · exact absurd (List.mem_map_of_mem Prod.fst h) (hw2 ▸ hnd.1)
        · exact Or.inl ⟨hw2, List.mem_cons_of_mem _ h⟩
    · rw [bumpCount, if_neg hk] at h
      rcases List.mem_cons.mp h with h | h
      · rw [Prod.mk.injEq] at h
        obtain ⟨rfl, rfl⟩ := h
        exact Or.inl ⟨hk, List.mem_cons_self _ _⟩
      · rcases ih hnd.2 h with ⟨hne, hm⟩ | ⟨he, i, hi, hb⟩
        · exact Or.inl ⟨hne, List.mem_cons_of_mem _ hm⟩
        · exact Or.inr ⟨he, i, List.mem_cons_of_mem _ hi, hb⟩

theorem lookup_some_mem {stats : List (String × WordInfo)} {w : String}
    {i : WordInfo} (h : stats.lookup w = some i) : (w, i) ∈ stats := by
  induction stats with
  | nil => simp [List.lookup] at h
  | cons p rest ih =>
    obtain ⟨k, info⟩ := p
    rw [List.lookup] at h
    by_cases hk : w = k
    · subst hk
      simp only [beq_self_eq_true, Option.some.injEq] at h
      subst h
      exact List.mem_cons_self _ _
    · rw [beq_eq_false_iff_ne.mpr hk] at h
      exact List.mem_cons_of_mem _ (ih h)

theorem lookup_none_not_mem {stats : List (String × WordInfo)} {w : String}
    (h : stats.lookup w = none) : w ∉ stats.map Prod.fst := by
  induction stats with
  | nil => simp
  | cons p rest ih =>
    obtain ⟨k, info⟩ := p
    rw [List.lookup] at h
    by_cases hk : w = k
    · rw [beq_iff_eq.mpr hk] at h
      simp at h
    · rw [beq_eq_false_iff_ne.mpr hk] at h
      simp only [List.map_cons, List.mem_cons]
      rintro (he | hm)
      · exact hk he
      · exact ih h hm

/-- Number of tokens of `ts` whose canonical form is `w`. -/
def countOcc (w : String) (ts : List (String × String)) : Nat :=
  (ts.filter (fun t => normalizeWord t.2 == w)).length

/-- The example unit of the first token of `ts` whose canonical form is `w`. -/
def firstEx (w : String) (ts : List (String × String)) : Option String :=
  (ts.find? (fun t => normalizeWord t.2 == w)).map Prod.fst

theorem countOcc_append_one (w : String) (ts : List (String × String))
    (t : String × String) :
    countOcc w (ts ++ [t]) =
      countOcc w ts + (if normalizeWord t.2 = w then 1 else 0) := by
  unfold countOcc
  rw [List.filter_append, List.length_append]
  congr 1
  by_cases h : normalizeWord t.2 = w <;> simp [h]

theorem firstEx_append_of_some {w : String} {ts : List (String × String)}
    {e : String} (h : firstEx w ts = some e) (t : String × String) :
    firstEx w (ts ++ [t]) = some e := by
  unfold firstEx at h ⊢
  obtain ⟨p, hp, hfst⟩ := Option.map_eq_some'.mp h
  rw [List.find?_append, hp]
  simpa using hfst

/-- Invariant tying the aggregation state to the processed token prefix: keys are
distinct; every entry carries a passing word, its score, the exact number of
occurrences so far and the example unit of the first occurrence; and every passing
processed token already has an entry. -/
structure StatsInv (table : List (String × Nat)) (threshold : ℚ)
    (ts : List (String × String)) (stats : List (String × WordInfo)) : Prop where
  nodup : (stats.map Prod.fst).Nodup
  sound : ∀ w info, (w, info) ∈ stats →
    passes table threshold w = true ∧
      info.score = estimateDifficultyScore table w ∧
      info.count = countOcc w ts ∧
      firstEx w ts = some info.exampleText
  complete : ∀ t ∈ ts, passes table threshold (normalizeWord t.2) = true →
    normalizeWord t.2 ∈ stats.map Prod.fst

theorem statsInv_step {table : List (String × Nat)} {threshold : ℚ}
    {ts : List (String × String)} {stats : List (String × WordInfo)}
    (h : StatsInv table threshold ts stats) (t : String × String) :
    StatsInv table threshold (ts ++ [t]) (processToken table threshold stats t) := by
  rw [processToken_eq]
  cases hpass : passes table threshold (normalizeWord t.2) with
  | false =>
    simp only [hpass, Bool.false_eq_true, if_false]
    refine ⟨h.nodup, ?_, ?_⟩
    · intro w info hmem
      obtain ⟨hpw, hsc, hct, hex⟩ := h.sound w info hmem
      have hne : normalizeWord t.2 ≠ w := by
        intro he
        rw [he, hpw] at hpass
        exact absurd hpass (by decide)
      refine ⟨hpw, hsc, ?_, firstEx_append_of_some hex t⟩
      rw [countOcc_append_one, if_neg hne, Nat.add_zero]
      exact hct
    · intro t0 ht0 hp0
      rcases List.mem_append.mp ht0 with h0 | h0
      · exact h.complete t0 h0 hp0
      · have he : t0 = t := by simpa using h0
        rw [he, hpass] at hp0
        exact absurd hp0 (by simp)
  | true =>
    simp only [hpass, if_true]
    cases hlk : stats.lookup (normalizeWord t.2) with
    | some i0 =>
      have hmem0 : (normalizeWord t.2, i0) ∈ stats := lookup_some_mem hlk
      refine ⟨?_, ?_, ?_⟩
      · rw [bumpCount_map_fst]
        exact h.nodup
      · intro w info hmem
        rcases mem_bumpCount h.nodup hmem with ⟨hne, hm⟩ | ⟨he, i, hi, hb⟩
        · obtain ⟨hpw, hsc, hct, hex⟩ := h.sound w info hm
          refine ⟨hpw, hsc, ?_, firstEx_append_of_some hex t⟩
          rw [countOcc_append_one, if_neg (fun hx => hne hx.symm), Nat.add_zero]
          exact hct
        · subst he
          subst hb
          obtain ⟨hpw, hsc, hct, hex⟩ := h.sound (normalizeWord t.2) i hi
          refine ⟨hpw, hsc, ?_, firstEx_append_of_some hex t⟩
          rw [countOcc_append_one, if_pos rfl, hct]
      · intro t0 ht0 hp0
        rw [bumpCount_map_fst]
        rcases List.mem_append.mp ht0 with h0 | h0
        · exact h.complete t0 h0 hp0
        · have he : t0 = t := by simpa using h0
          rw [he]
          exact List.mem_map_of_mem Prod.fst hmem0
    | none =>
      have hnotin : normalizeWord t.2 ∉ stats.map Prod.fst := lookup_none_not_mem hlk
      have hno : ∀ t0 ∈ ts, ¬(normalizeWord t0.2 == normalizeWord t.2) = true := by
        intro t0 ht0 hbeq
        have he : normalizeWord t0.2 = normalizeWord t.2 := by simpa using hbeq
        exact hnotin (he ▸ h.complete t0 ht0 (by rw [he]; exact hpass))
      refine ⟨?_, ?_, ?_⟩
      · rw [List.map_append]
        rw [List.nodup_append]
        refine ⟨h.nodup, List.nodup_singleton _, ?_⟩
        intro a ha hb
        have : a = normalizeWord t.2 := by simpa using hb
        exact hnotin (this ▸ ha)
      · intro w info hmem
        rcases List.mem_append.mp hmem with hm | hm
        · obtain ⟨hpw, hsc, hct, hex⟩ := h.sound w info hm
          have hne : normalizeWord t.2 ≠ w :=
            fun he => hnotin (he ▸ List.mem_map_of_mem Prod.fst hm)
          refine ⟨hpw, hsc, ?_, firstEx_append_of_some hex t⟩
          rw [countOcc_append_one, if_neg hne, Nat.add_zero]
          exact hct
        · have hm' : (w, info) =
              (normalizeWord t.2,
                ⟨1, estimateDifficultyScore table (normalizeWord t.2), t.1⟩) := by
            simpa using hm
          rw [Prod.mk.injEq] at hm'
          obtain ⟨rfl, rfl⟩ := hm'
          refine ⟨hpass, rfl, ?_, ?_⟩
          · rw [countOcc_append_one, if_pos rfl]
            have hz : countOcc (normalizeWord t.2) ts = 0 := by
              unfold countOcc
              rw [List.length_eq_zero, List.filter_eq_nil_iff]
              exact hno
            rw [hz]
          · unfold firstEx
            rw [List.find?_append, List.find?_eq_none.mpr hno]
            simp [List.find?]
      · intro t0 ht0 hp0
        rw [List.map_append]
        rcases List.mem_append.mp ht0 with h0 | h0
        · exact List.mem_append_left _ (h.complete t0 h0 hp0)
        · have he : t0 = t := by simpa using h0
          rw [he]
          apply List.mem_append_right
          simp

theorem statsInv_foldl (table : List (String × Nat)) (threshold : ℚ)
    (ts : List (String × String)) :
    StatsInv table threshold ts (ts.foldl (processToken table threshold) []) := by
  induction ts using List.reverseRecOn with
  | nil =>
    exact ⟨List.nodup_nil, fun w info hmem => absurd hmem (List.not_mem_nil _),
      fun t ht _ => absurd ht (List.not_mem_nil _)⟩
  | append_singleton ts t ih =>
    rw [List.foldl_append]
    exact statsInv_step ih t

/-- The aggregation state of any lyrics satisfies the invariant over its own
token stream. -/
theorem wordStats_inv (table : List (String × Nat)) (threshold : ℚ) (lyrics : String) :
    StatsInv table threshold (tokenStream lyrics) (wordStats table threshold lyrics) :=
  statsInv_foldl table threshold (tokenStream lyrics)

theorem mem_extract_iff {table : List (String × Nat)} {lyrics : String}
    {level : UserLevel} {item : LearningItem} :
    item ∈ extractLearningItems table lyrics level ↔
      ∃ p ∈ wordStats table (LEVEL_DIFFICULTY_THRESHOLD level) lyrics,
        mkItem (LEVEL_DIFFICULTY_THRESHOLD level) p = item := by
  unfold extractLearningItems
  rw [(List.mergeSort_perm _ itemLE).mem_iff]
  exact List.mem_map

/-! ### Claim C2: counts and first examples -/

/-- Number of filter-passing occurrences of the canonical word `w` in the token
stream, as claim C2 counts them. -/
def passingOcc (table : List (String × Nat)) (threshold : ℚ) (w : String)
    (ts : List (String × String)) : Nat :=
  (ts.filter (fun t => normalizeWord t.2 == w &&
    passes table threshold (normalizeWord t.2))).length

/-- The example unit containing the first filter-passing occurrence of `w`. -/
def firstPassingEx (table : List (String × Nat)) (threshold : ℚ) (w : String)
    (ts : List (String × String)) : Option String :=
  (ts.find? (fun t => normalizeWord t.2 == w &&
    passes table threshold (normalizeWord t.2))).map Prod.fst

theorem passing_pred_eq {table : List (String × Nat)} {threshold : ℚ} {w : String}
    (hp : passes table threshold w = true) :
    (fun t : String × String => normalizeWord t.2 == w &&
        passes table threshold (normalizeWord t.2)) =
      (fun t : String × String => normalizeWord t.2 == w) := by
  funext t
  by_cases he : normalizeWord t.2 = w
  · rw [he]
    simp [hp]
  · simp [beq_eq_false_iff_ne.mpr he]

/-- Claim C2: for every item of the output, `count` is exactly the number of
filter-passing occurrences of the canonical word in the token stream, `example`
is the example unit containing the first such occurrence in input order, and the
score is the function of the word alone, so later occurrences change neither. -/
theorem c2_count_and_example_correct (table : List (String × Nat)) (lyrics : String)
    (level : UserLevel) (item : LearningItem)
    (h : item ∈ extractLearningItems table lyrics level) :
    item.count = passingOcc table (LEVEL_DIFFICULTY_THRESHOLD level) item.word
        (tokenStream lyrics) ∧
      firstPassingEx table (LEVEL_DIFFICULTY_THRESHOLD level) item.word
          (tokenStream lyrics) = some item.exampleText ∧
      item.difficultyScore = estimateDifficultyScore table item.word := by
  obtain ⟨p, hp, rfl⟩ := mem_extract_iff.mp h
  obtain ⟨hpw, hsc, hct, hex⟩ :=
    (wordStats_inv table (LEVEL_DIFFICULTY_THRESHOLD level) lyrics).sound p.1 p.2
      (by simpa using hp)
  refine ⟨?_, ?_, hsc⟩
  · unfold passingOcc
    rw [show (mkItem (LEVEL_DIFFICULTY_THRESHOLD level) p).word = p.1 from rfl,
      passing_pred_eq hpw]
    exact hct
  · unfold firstPassingEx
    rw [show (mkItem (LEVEL_DIFFICULTY_THRESHOLD level) p).word = p.1 from rfl,
      passing_pred_eq hpw]
    exact hex

/-! ### Claim C3: ranking -/

theorem itemLE_iff {a b : LearningItem} :
    itemLE a b = true ↔
      b.difficultyScore < a.difficultyScore ∨
        (a.difficultyScore = b.difficultyScore ∧ b.count ≤ a.count) := by
  unfold itemLE
  simp

theorem itemLE_trans : ∀ a b c : LearningItem,
    itemLE a b = true → itemLE b c = true → itemLE a c = true := by
  intro a b c hab hbc
  rw [itemLE_iff] at hab hbc ⊢
  rcases hab with hab | ⟨hab1, hab2⟩
  · rcases hbc with hbc | ⟨hbc1, hbc2⟩
    · exact Or.inl (lt_trans hbc hab)
    · exact Or.inl (hbc1 ▸ hab)
  · rcases hbc with hbc | ⟨hbc1, hbc2⟩
    · exact Or.inl (by rw [hab1]; exact hbc)
    · exact Or.inr ⟨hab1.trans hbc1, le_trans hbc2 hab2⟩

theorem itemLE_total : ∀ a b : LearningItem, (itemLE a b || itemLE b a) = true := by
  intro a b
  simp only [Bool.or_eq_true, itemLE_iff]
  rcases lt_trichotomy a.difficultyScore b.difficultyScore with h | h | h
  · exact Or.inr (Or.inl h)
  · rcases le_total a.count b.count with hc | hc
    · exact Or.inr (Or.inr ⟨h.symm, hc⟩)
    · exact Or.inl (Or.inr ⟨h, hc⟩)
  · exact Or.inl (Or.inl h)

/-- Claim C3: in the output list, whenever item `a` precedes item `b`, the score of
`a` is at least the score of `b`, and on equal scores the count of `a` is at least
the count of `b`. -/
theorem c3_ranking_sorted (table : List (String × Nat)) (lyrics : String)
    (level : UserLevel) :
    (extractLearningItems table lyrics level).Pairwise
      (fun a b => b.difficultyScore ≤ a.difficultyScore ∧
        (a.difficultyScore = b.difficultyScore → b.count ≤ a.count)) := by
  have hs := List.sorted_mergeSort itemLE_trans itemLE_total
    ((wordStats table (LEVEL_DIFFICULTY_THRESHOLD level) lyrics).map
      (mkItem (LEVEL_DIFFICULTY_THRESHOLD level)))
  unfold extractLearningItems
  refine hs.imp ?_
  intro a b hab
  rw [itemLE_iff] at hab
  rcases hab with hab | ⟨h1, h2⟩
  · exact ⟨le_of_lt hab, fun he => absurd (he ▸ hab) (lt_irrefl _)⟩
  · exact ⟨le_of_eq h1.symm, fun _ => h2⟩

/-! ### Claim C4: threshold monotonicity -/

theorem mem_words_iff {table : List (String × Nat)} {lyrics : String}
    {level : UserLevel} {w : String} :
    w ∈ (extractLearningItems table lyrics level).map LearningItem.word ↔
      ∃ t ∈ tokenStream lyrics, normalizeWord t.2 = w ∧
        passes table (LEVEL_DIFFICULTY_THRESHOLD level) w = true := by
  constructor
  · intro hw
    obtain ⟨item, hitem, rfl⟩ := List.mem_map.mp hw
    obtain ⟨p, hp, rfl⟩ := mem_extract_iff.mp hitem
    obtain ⟨hpw, -, -, hex⟩ :=
      (wordStats_inv table (LEVEL_DIFFICULTY_THRESHOLD level) lyrics).sound p.1 p.2
        (by simpa using hp)
    unfold firstEx at hex
    obtain ⟨t0, ht0, -⟩ := Option.map_eq_some'.mp hex
    exact ⟨t0, List.mem_of_find?_eq_some ht0,
      by simpa using List.find?_some ht0, hpw⟩
  · rintro ⟨t, ht, hn, hpass⟩
    have hkey := (wordStats_inv table (LEVEL_DIFFICULTY_THRESHOLD level) lyrics).complete
      t ht (by rw [hn]; exact hpass)
    rw [hn] at hkey
    obtain ⟨p, hp, hfst⟩ := List.mem_map.mp hkey
    exact List.mem_map.mpr ⟨mkItem (LEVEL_DIFFICULTY_THRESHOLD level) p,
      mem_extract_iff.mpr ⟨p, hp, rfl⟩, hfst⟩

/-- Claim C4: with a fixed lyrics text, if the threshold of level `L` is strictly
below the threshold of level `Lp`, every canonical word appearing in the output at
`Lp` also appears in the output at `L`. -/
theorem c4_threshold_monotonicity (table : List (String × Nat)) (lyrics : String)
    (L Lp : UserLevel)
    (hth : LEVEL_DIFFICULTY_THRESHOLD L < LEVEL_DIFFICULTY_THRESHOLD Lp)
    (w : String)
    (hw : w ∈ (extractLearningItems table lyrics Lp).map LearningItem.word) :
    w ∈ (extractLearningItems table lyrics L).map LearningItem.word := by
  rw [mem_words_iff] at hw ⊢
  obtain ⟨t, ht, hn, hpass⟩ := hw
  refine ⟨t, ht, hn, ?_⟩
  unfold passes at hpass ⊢
  simp only [Bool.and_eq_true, decide_eq_true_eq] at hpass ⊢
  exact ⟨hpass.1, lt_trans hth hpass.2⟩

/-! ### Claim C5: banding -/

/-- Claim C5: the banding function answers `comfortable` up to the threshold,
`stretch` up to threshold + 2 and `challenging` above, and every produced item
carries exactly the band computed from its own score and the level threshold. -/
theorem c5_banding_consistent :
    (∀ s t : ℚ, (s ≤ t → toDifficultyBand s t = .comfortable) ∧
        (t < s → s ≤ t + 2 → toDifficultyBand s t = .stretch) ∧
        (t + 2 < s → toDifficultyBand s t = .challenging)) ∧
      ∀ (table : List (String × Nat)) (lyrics : String) (level : UserLevel)
        (item : LearningItem), item ∈ extractLearningItems table lyrics level →
          item.difficultyBand =
            toDifficultyBand item.difficultyScore (LEVEL_DIFFICULTY_THRESHOLD level) := by
  constructor
  · intro s t
    refine ⟨fun h => ?_, fun h1 h2 => ?_, fun h => ?_⟩
    · rw [toDifficultyBand, if_pos h]
    · rw [toDifficultyBand, if_neg (not_le.mpr h1), if_pos h2]
    · rw [toDifficultyBand, if_neg (not_le.mpr (lt_trans (by linarith) h)),
        if_neg (not_le.mpr h)]
  · intro table lyrics level item h
    obtain ⟨p, hp, rfl⟩ := mem_extract_iff.mp h
    rfl

/-! ### Claim C6: no stop words -/

/-- Claim C6: no output item carries a word of the stop-word set; the membership
test is on the canonical form. -/
theorem c6_no_stop_words (table : List (String × Nat)) (lyrics : String)
    (level : UserLevel) (item : LearningItem)
    (h : item ∈ extractLearningItems table lyrics level) :
    STOP_WORDS.contains item.word = false := by
  obtain ⟨p, hp, rfl⟩ := mem_extract_iff.mp h
  have hpw := ((wordStats_inv table (LEVEL_DIFFICULTY_THRESHOLD level) lyrics).sound
    p.1 p.2 (by simpa using hp)).1
  unfold passes at hpw
  simp only [Bool.and_eq_true, Bool.not_eq_true'] at hpw
  exact hpw.1.1.2

/-! ### Claim C10: no comfortable items -/

/-- Claim C10: every output item scores strictly above the level threshold, so its
band, computed from that score and threshold, is never `comfortable`. -/
theorem c10_never_comfortable (table : List (String × Nat)) (lyrics : String)
    (level : UserLevel) (item : LearningItem)
    (h : item ∈ extractLearningItems table lyrics level) :
    LEVEL_DIFFICULTY_THRESHOLD level < item.difficultyScore ∧
      item.difficultyBand ≠ DifficultyBand.comfortable := by
  obtain ⟨p, hp, rfl⟩ := mem_extract_iff.mp h
  obtain ⟨hpw, hsc, -, -⟩ :=
    (wordStats_inv table (LEVEL_DIFFICULTY_THRESHOLD level) lyrics).sound p.1 p.2
      (by simpa using hp)
  unfold passes at hpw
  simp only [Bool.and_eq_true, decide_eq_true_eq] at hpw
  have hlt : LEVEL_DIFFICULTY_THRESHOLD level < p.2.score := by
    rw [hsc]
    exact hpw.2
  refine ⟨hlt, ?_⟩
  show toDifficultyBand p.2.score (LEVEL_DIFFICULTY_THRESHOLD level) ≠ _
  rw [toDifficultyBand, if_neg (not_le.mpr hlt)]
  split <;> simp

/-! ### Claim C7: tokens without letters -/

/-- Claim C7, amended: a raw token containing neither ASCII letters nor apostrophes
normalises to the empty string, and the pipeline never emits an item whose word is
empty (the original claim, quantified over all tokens without letters, fails on
apostrophe-only tokens, which `normalizeWord` keeps). -/
theorem c7_no_letter_tokens :
    (∀ raw : String,
        raw.data.all (fun c => !isAsciiLetter c && !(c == apostrophe)) = true →
          normalizeWord raw = "") ∧
      ∀ (table : List (String × Nat)) (lyrics : String) (level : UserLevel)
        (item : LearningItem), item ∈ extractLearningItems table lyrics level →
          item.word ≠ "" := by
  constructor
  · intro raw hall
    rw [List.all_eq_true] at hall
    unfold normalizeWord
    have hdrop : (raw.data.map Char.toLower).dropWhile (fun c => !keepChar c) = [] := by
      rw [List.dropWhile_eq_nil_iff]
      intro c hc
      obtain ⟨c0, hc0, rfl⟩ := List.mem_map.mp hc
      have h0 := hall c0 hc0
      rw [Bool.and_eq_true] at h0
      obtain ⟨hletter, hapos⟩ := h0
      have hl : isAsciiLetter c0 = false := by simpa using hletter
      unfold isAsciiLetter at hl
      obtain ⟨hlower, hupper⟩ := Bool.or_eq_false_iff.mp hl
      have hap : (c0 == apostrophe) = false := by simpa using hapos
      rw [char_toLower_of_not_upper hupper]
      simp [keepChar, hlower, beq_eq_false_iff_ne.mp hap]
    rw [hdrop]
    rfl
  · intro table lyrics level item h
    obtain ⟨p, hp, rfl⟩ := mem_extract_iff.mp h
    have hpw := ((wordStats_inv table (LEVEL_DIFFICULTY_THRESHOLD level) lyrics).sound
      p.1 p.2 (by simpa using hp)).1
    unfold passes at hpw
    simp only [Bool.and_eq_true, Bool.not_eq_true', decide_eq_false_iff_not] at hpw
    exact hpw.1.1.1

/-- Counterexample to claim C7 as stated: the raw token consisting of one apostrophe
contains no letters, yet `normalizeWord` keeps it (the boundary strip removes only
characters that are neither letters nor apostrophes), so the result is not empty. -/
theorem c7_apostrophe_counterexample :
    (⟨[apostrophe]⟩ : String).data.all (fun c => !isAsciiLetter c) = true ∧
      normalizeWord ⟨[apostrophe]⟩ ≠ "" := by
  decide

/-! ### Claim C8: examples are verbatim input text -/

theorem splitCharsOn_ne_nil (p : Char → Bool) (l : List Char) :
    splitCharsOn p l ≠ [] := by
  cases l with
  | nil => simp [splitCharsOn]
  | cons c cs =>
    rw [splitCharsOn]
    by_cases h : p c
    · simp [h]
    · rw [if_neg h]
      cases hs : splitCharsOn p cs <;> simp

theorem splitCharsOn_head_starts (p : Char → Bool) :
    ∀ (l piece : List Char) (rest : List (List Char)),
      splitCharsOn p l = piece :: rest → piece <+: l := by
  intro l
  induction l with
  | nil =>
    intro piece rest h
    rw [splitCharsOn] at h
    injection h with h1 h2
    rw [← h1]
  | cons c cs ih =>
    intro piece rest h
    rw [splitCharsOn] at h
    by_cases hc : p c
    · rw [if_pos hc] at h
      injection h with h1 h2
      rw [← h1]
      exact List.nil_prefix
    · rw [if_neg hc] at h
      cases hs : splitCharsOn p cs with
      | nil => exact absurd hs (splitCharsOn_ne_nil p cs)
      | cons piece0 rest0 =>
        rw [hs] at h
        injection h with h1 h2
        rw [← h1]
        exact (List.cons_prefix_cons).mpr ⟨rfl, ih piece0 rest0 hs⟩

theorem mem_splitCharsOn_within (p : Char → Bool) :
    ∀ (l : List Char), ∀ piece ∈ splitCharsOn p l, piece <:+: l := by
  intro l
  induction l with
  | nil =>
    intro piece h
    rw [splitCharsOn, List.mem_singleton] at h
    rw [h]
  | cons c cs ih =>
    intro piece h
    rw [splitCharsOn] at h
    by_cases hc : p c
    · rw [if_pos hc] at h
      rcases List.mem_cons.mp h with rfl | h
      · exact List.nil_prefix.isInfix
      · exact List.infix_cons (ih piece h)
    · rw [if_neg hc] at h
      cases hs : splitCharsOn p cs with
      | nil => exact absurd hs (splitCharsOn_ne_nil p cs)
      | cons piece0 rest0 =>
        rw [hs] at h
        rcases List.mem_cons.mp h with rfl | h
        · exact ((List.cons_prefix_cons).mpr
            ⟨rfl, splitCharsOn_head_starts p cs piece0 rest0 hs⟩).isInfix
        · exact List.infix_cons
            (ih piece (by rw [hs]; exact List.mem_cons_of_mem piece0 h))

theorem trimEndBy_starts (p : Char → Bool) (l : List Char) : trimEndBy p l <+: l := by
  unfold trimEndBy
  apply List.reverse_suffix.mp
  rw [List.reverse_reverse]
  exact List.dropWhile_suffix p

theorem trimChars_within (l : List Char) : trimChars l <:+: l := by
  unfold trimChars
  exact List.IsInfix.trans (trimEndBy_starts _ _).isInfix
    (List.dropWhile_suffix _).isInfix

theorem mem_splitIntoExamples_within {text ex : String}
    (h : ex ∈ splitIntoExamples text) : ex.data <:+: text.data := by
  unfold splitIntoExamples at h
  obtain ⟨l, hl, rfl⟩ := List.mem_map.mp h
  obtain ⟨piece, hpiece, rfl⟩ := List.mem_map.mp (List.mem_filter.mp hl).1
  exact List.IsInfix.trans (trimChars_within piece)
    (mem_splitCharsOn_within _ _ piece hpiece)

theorem tokenStream_fst_mem {lyrics : String} {t : String × String}
    (h : t ∈ tokenStream lyrics) : t.1 ∈ splitIntoExamples lyrics := by
  unfold tokenStream at h
  obtain ⟨ex, hex, hmap⟩ := List.mem_flatMap.mp h
  obtain ⟨r, hr, rfl⟩ := List.mem_map.mp hmap
  exact hex

/-- Claim C8: every output item cites as `example` one of the example units of the
input, and that unit is verbatim contiguous text of the input lyrics (original
casing and punctuation preserved: the pipeline never normalises it). -/
theorem c8_example_verbatim (table : List (String × Nat)) (lyrics : String)
    (level : UserLevel) (item : LearningItem)
    (h : item ∈ extractLearningItems table lyrics level) :
    item.exampleText ∈ splitIntoExamples lyrics ∧
      item.exampleText.data <:+: lyrics.data := by
  obtain ⟨p, hp, rfl⟩ := mem_extract_iff.mp h
  have hex := ((wordStats_inv table (LEVEL_DIFFICULTY_THRESHOLD level) lyrics).sound
    p.1 p.2 (by simpa using hp)).2.2.2
  unfold firstEx at hex
  obtain ⟨t0, ht0, hfst⟩ := Option.map_eq_some'.mp hex
  have hmem : t0.1 ∈ splitIntoExamples lyrics :=
    tokenStream_fst_mem (List.mem_of_find?_eq_some ht0)
  have heq : (mkItem (LEVEL_DIFFICULTY_THRESHOLD level) p).exampleText = t0.1 :=
    hfst.symm
  rw [heq]
  exact ⟨hmem, mem_splitIntoExamples_within hmem⟩

/-! ### Concrete runs of the pipeline, used by the witnesses -/

/-- A one-word frequency table placing `zaz` in tier 1. -/
def zazTable : List (String × Nat) := [("zaz", 1)]

/-- The item the pipeline produces from the lyrics `zaz` at level A1 (score
4 + 0.5 for the cluster `z`, band `challenging` against threshold 2). -/
def zazItem : LearningItem :=
  ⟨"zaz", "zaz", 9 / 2, DifficultyBand.challenging, 1, "zaz"⟩

/-- The same run at level A2, where the band is `stretch` against threshold 3. -/
def zazItemA2 : LearningItem :=
  ⟨"zaz", "zaz", 9 / 2, DifficultyBand.stretch, 1, "zaz"⟩

theorem zaz_score : estimateDifficultyScore zazTable "zaz" = 9 / 2 := by
  rw [estimateDifficultyScore_eq_raw]
  unfold rawDifficultyScore
  rw [show getWordFrequencyTier zazTable "zaz" = 1 from by decide,
    show ("zaz" : String).length = 3 from by decide,
    show estimateSyllables "zaz" = 1 from by decide,
    show hasAcademicSuffix "zaz" = false from by decide,
    show hasComplexCluster "zaz" = true from by decide]
  norm_num

theorem wordStats_zaz {thr : ℚ} (h : thr < 9 / 2) :
    wordStats zazTable thr "zaz" = [("zaz", ⟨1, 9 / 2, "zaz"⟩)] := by
  have hn : ¬(estimateDifficultyScore zazTable "zaz" ≤ thr) := by
    rw [zaz_score]
    exact not_le.mpr h
  unfold wordStats
  rw [show tokenStream "zaz" = [("zaz", "zaz")] from by decide]
  rw [List.foldl_cons, List.foldl_nil]
  simp only [processToken]
  rw [show normalizeWord "zaz" = "zaz" from by decide]
  rw [if_neg (by decide : ¬("zaz" = "")),
    if_neg (by decide : ¬(STOP_WORDS.contains "zaz" = true)),
    if_neg (by decide : ¬(("zaz" : String).data.any Char.isDigit = true)),
    if_neg hn]
  simp [List.lookup, zaz_score]

theorem band_zaz_A1 : toDifficultyBand (9 / 2) 2 = DifficultyBand.challenging := by
  rw [toDifficultyBand, if_neg (by norm_num), if_neg (by norm_num)]

theorem band_zaz_A2 : toDifficultyBand (9 / 2) 3 = DifficultyBand.stretch := by
  rw [toDifficultyBand, if_neg (by norm_num), if_pos (by norm_num)]

theorem extract_zaz_A1 :
    extractLearningItems zazTable "zaz" UserLevel.A1 = [zazItem] := by
  unfold extractLearningItems
  rw [show LEVEL_DIFFICULTY_THRESHOLD UserLevel.A1 = 2 from rfl,
    wordStats_zaz (by norm_num : (2 : ℚ) < 9 / 2)]
  have hm : mkItem 2 ("zaz", (⟨1, 9 / 2, "zaz"⟩ : WordInfo)) = zazItem := by
    unfold mkItem zazItem
    rw [show (("zaz", (⟨1, 9 / 2, "zaz"⟩ : WordInfo)).2.score) = (9 / 2 : ℚ) from rfl,
      band_zaz_A1]
  rw [List.map_cons, List.map_nil, hm]
  exact List.perm_singleton.mp (List.mergeSort_perm _ itemLE)

theorem extract_zaz_A2 :
    extractLearningItems zazTable "zaz" UserLevel.A2 = [zazItemA2] := by
  unfold extractLearningItems
  rw [show LEVEL_DIFFICULTY_THRESHOLD UserLevel.A2 = 3 from rfl,
    wordStats_zaz (by norm_num : (3 : ℚ) < 9 / 2)]
  have hm : mkItem 3 ("zaz", (⟨1, 9 / 2, "zaz"⟩ : WordInfo)) = zazItemA2 := by
    unfold mkItem zazItemA2
    rw [show (("zaz", (⟨1, 9 / 2, "zaz"⟩ : WordInfo)).2.score) = (9 / 2 : ℚ) from rfl,
      band_zaz_A2]
  rw [List.map_cons, List.map_nil, hm]
  exact List.perm_singleton.mp (List.mergeSort_perm _ itemLE)

/-! ### Witnesses -/

/-- Witness for `c2_count_and_example_correct` on the run of `zaz` at level A1. -/
theorem c2_count_and_example_correct_witness :
    zazItem.count = passingOcc zazTable (LEVEL_DIFFICULTY_THRESHOLD UserLevel.A1)
        zazItem.word (tokenStream "zaz") ∧
      firstPassingEx zazTable (LEVEL_DIFFICULTY_THRESHOLD UserLevel.A1) zazItem.word
          (tokenStream "zaz") = some zazItem.exampleText ∧
      zazItem.difficultyScore = estimateDifficultyScore zazTable zazItem.word :=
  c2_count_and_example_correct zazTable "zaz" UserLevel.A1 zazItem
    (by rw [extract_zaz_A1]; exact List.mem_singleton.mpr rfl)

/-- Witness for `c4_threshold_monotonicity` between levels A1 and A2. -/
theorem c4_threshold_monotonicity_witness :
    "zaz" ∈ (extractLearningItems zazTable "zaz" UserLevel.A1).map LearningItem.word :=
  c4_threshold_monotonicity zazTable "zaz" UserLevel.A1 UserLevel.A2
    (by
      rw [show LEVEL_DIFFICULTY_THRESHOLD UserLevel.A1 = 2 from rfl,
        show LEVEL_DIFFICULTY_THRESHOLD UserLevel.A2 = 3 from rfl]
      norm_num)
    "zaz"
    (by
      rw [extract_zaz_A2]
      exact List.mem_map.mpr ⟨zazItemA2, List.mem_singleton.mpr rfl, rfl⟩)

/-- Witness for `c5_banding_consistent` at score 1, threshold 2 and on the `zaz` run. -/
theorem c5_banding_consistent_witness :
    toDifficultyBand 1 2 = DifficultyBand.comfortable ∧
      zazItem.difficultyBand =
        toDifficultyBand zazItem.difficultyScore (LEVEL_DIFFICULTY_THRESHOLD UserLevel.A1) :=
  ⟨(c5_banding_consistent.1 1 2).1 (by norm_num),
    c5_banding_consistent.2 zazTable "zaz" UserLevel.A1 zazItem
      (by rw [extract_zaz_A1]; exact List.mem_singleton.mpr rfl)⟩

/-- Witness for `c6_no_stop_words` on the `zaz` run. -/
theorem c6_no_stop_words_witness :
    STOP_WORDS.contains zazItem.word = false :=
  c6_no_stop_words zazTable "zaz" UserLevel.A1 zazItem
    (by rw [extract_zaz_A1]; exact List.mem_singleton.mpr rfl)

/-- Witness for `c7_no_letter_tokens` at the token `123` and on the `zaz` run. -/
theorem c7_no_letter_tokens_witness :
    normalizeWord "123" = "" ∧ zazItem.word ≠ "" :=
  ⟨c7_no_letter_tokens.1 "123" (by decide),
    c7_no_letter_tokens.2 zazTable "zaz" UserLevel.A1 zazItem
      (by rw [extract_zaz_A1]; exact List.mem_singleton.mpr rfl)⟩

/-- Witness for `c8_example_verbatim` on the `zaz` run. -/
theorem c8_example_verbatim_witness :
    zazItem.exampleText ∈ splitIntoExamples "zaz" ∧
      zazItem.exampleText.data <:+: ("zaz" : String).data :=
  c8_example_verbatim zazTable "zaz" UserLevel.A1 zazItem
    (by rw [extract_zaz_A1]; exact List.mem_singleton.mpr rfl)

/-- Witness for `c10_never_comfortable` on the `zaz` run. -/
theorem c10_never_comfortable_witness :
    LEVEL_DIFFICULTY_THRESHOLD UserLevel.A1 < zazItem.difficultyScore ∧
      zazItem.difficultyBand ≠ DifficultyBand.comfortable :=
  c10_never_comfortable zazTable "zaz" UserLevel.A1 zazItem
    (by rw [extract_zaz_A1]; exact List.mem_singleton.mpr rfl)

end Learnbysongs
